import Mathlib

/-!
Verification of the UNO skill-ranking engine (`skill_ranker.py`).

The store layer (rating store, add-player handler, record-match handler,
history log, load/save fallback) is embedded directly from the source.
The numeric update algorithm is `trueskill.TrueSkill(draw_probability=0.0).rate`,
which lives in the `trueskill` library dependency, not in this repository;
it is modelled from the spec as the classic TrueSkill head-to-head update
(Gaussian factor-graph closed form with draw margin 0).
-/

namespace UNORanking

open Real MeasureTheory Set Filter intervalIntegral

/-! ### Model constants

`trueskill.TrueSkill(draw_probability=0.0)` keeps the library defaults
`MU = 25`, `SIGMA = MU/3`, `BETA = SIGMA/2`, `TAU = SIGMA/100`. -/

noncomputable def mu0 : ℝ := 25

noncomputable def sigma0 : ℝ := 25 / 3

noncomputable def beta : ℝ := 25 / 6

noncomputable def tau : ℝ := 25 / 300

/-! ### Rating model -/

/-- A player's rating: a Gaussian skill belief, as in `trueskill.Rating`.
Only `mu` and `sigma` are stored; the conservative score is derived. -/
structure Rating where
  mu : ℝ
  sigma : ℝ

/-- `env.Rating()` with no arguments: the fixed default prior. -/
noncomputable def defaultRating : Rating := ⟨mu0, sigma0⟩

/-- The rating store: the Python dict `st.session_state.ratings`
(name -> Rating), insertion ordered. -/
abbrev Store := List (String × Rating)

/-! ### Gaussian helper functions

The standard normal pdf and cdf used by the TrueSkill truncation factor. -/

/-- Standard normal probability density. -/
noncomputable def gpdf (x : ℝ) : ℝ := Real.exp (-(x ^ 2) / 2) / Real.sqrt (2 * Real.pi)

/-- Standard normal cumulative distribution function. -/
noncomputable def gcdf (t : ℝ) : ℝ := ∫ x in Set.Iic t, gpdf x

/-- TrueSkill mean-update factor for a no-draw win, `v(t) = pdf(t)/cdf(t)`. -/
noncomputable def vWin (t : ℝ) : ℝ := gpdf t / gcdf t

/-- TrueSkill variance-update factor for a no-draw win,
`w(t) = v(t) * (v(t) + t)`. -/
noncomputable def wWin (t : ℝ) : ℝ := vWin t * (vWin t + t)

/-! ### The update algorithm -/

/-- Prior variance of one participant after the dynamics factor `tau`
is added (`sigma^2 + tau^2`). -/
noncomputable def dynVar (r : Rating) : ℝ := r.sigma ^ 2 + tau ^ 2

/-- Total performance variance of a head-to-head match. -/
noncomputable def c2 (r1 r2 : Rating) : ℝ := dynVar r1 + dynVar r2 + 2 * beta ^ 2

/-- Normalized mean difference fed to the truncation factor. -/
noncomputable def tArg (r1 r2 : Rating) : ℝ := (r1.mu - r2.mu) / Real.sqrt (c2 r1 r2)

/-- Modelled from the spec: the Update Algorithm (`env.rate` of the
`trueskill` library, which is a dependency and not part of this
repository's source). For a head-to-head match (winner first) this is the
TrueSkill family's closed-form posterior with draw probability 0:
means shift by `(sigma_i^2+tau^2)/c * v(t)` toward the observed outcome and
each variance becomes `(sigma_i^2+tau^2) * (1 - (sigma_i^2+tau^2)/c^2 * w(t))`. -/
noncomputable def rate2 (r1 r2 : Rating) : Rating × Rating :=
  (⟨r1.mu + dynVar r1 / Real.sqrt (c2 r1 r2) * vWin (tArg r1 r2),
    Real.sqrt (dynVar r1 * (1 - dynVar r1 / c2 r1 r2 * wWin (tArg r1 r2)))⟩,
   ⟨r2.mu - dynVar r2 / Real.sqrt (c2 r1 r2) * vWin (tArg r1 r2),
    Real.sqrt (dynVar r2 * (1 - dynVar r2 / c2 r1 r2 * wWin (tArg r1 r2)))⟩)

/-- Message an adjacent-rank comparison sends to its winner `a` (`b` is the
loser), as a (precision increment, precision-mean increment) pair: the
moment-matched pairwise posterior of `a` divided by its prior. With
`A = dynVar a`, `C = c2 a b`, `v`, `w` the truncation factors, the pairwise
posterior is mean `a.mu + (A/sqrt C)*v` and variance `A*(1 - A/C*w)`, and
Gaussian division gives the closed forms below. -/
noncomputable def msgW (a b : Rating) : ℝ × ℝ :=
  (wWin (tArg a b) / (c2 a b - dynVar a * wWin (tArg a b)),
   (a.mu * wWin (tArg a b) + Real.sqrt (c2 a b) * vWin (tArg a b)) /
     (c2 a b - dynVar a * wWin (tArg a b)))

/-- Likewise, the message the comparison sends to its loser `b`: the
pairwise posterior of `b` (mean shifted down) divided by its prior. -/
noncomputable def msgL (a b : Rating) : ℝ × ℝ :=
  (wWin (tArg a b) / (c2 a b - dynVar b * wWin (tArg a b)),
   (b.mu * wWin (tArg a b) - Real.sqrt (c2 a b) * vWin (tArg a b)) /
     (c2 a b - dynVar b * wWin (tArg a b)))

/-- Combine a participant's tau-inflated prior belief with the accumulated
messages `p` (precision increment, precision-mean increment) of its
adjacent comparisons: Gaussian multiplication at the skill variable node,
so precisions and precision-means add. -/
noncomputable def combine (r : Rating) (p : ℝ × ℝ) : Rating :=
  ⟨(r.mu / dynVar r + p.2) / (1 / dynVar r + p.1),
   Real.sqrt (1 / (1 / dynVar r + p.1))⟩

/-- One sweep down the rank-ordered chain of participants: `p` carries the
message the current participant `r` received from the comparison with its
predecessor; `r` is additionally sent the winner-side message of its
comparison with its successor. -/
noncomputable def chainRate (p : ℝ × ℝ) (r : Rating) : List Rating → List Rating
  | [] => [combine r p]
  | next :: rest =>
      combine r (p.1 + (msgW r next).1, p.2 + (msgW r next).2) ::
        chainRate (msgL r next) next rest

/-- Modelled from the spec: `env.rate` on a ranked list of one-player teams
(rank 0 first; the `trueskill` library is a dependency, not part of this
repository's source). Following the spec's description of the Update
Algorithm, the participants form a chain factor graph in which each
adjacent-rank pair is compared through a no-draw truncation factor; each
comparison is moment-matched against the prior beliefs and the resulting
messages are combined precision-additively at every participant (Gaussian
belief propagation), shifting every mean toward the observed outcome while
adding the dynamics variance `tau^2` to every participant. This performs
one sweep of message passing, whereas the library iterates the sweep to
convergence; for a head-to-head match one sweep is already exact and
agrees with the classic closed form `rate2`. -/
noncomputable def rate : List Rating → List Rating
  | [] => []
  | r :: rest => chainRate (0, 0) r rest

/-! ### Store operations (the Streamlit handlers) -/

/-- Result surfaced to the user by a handler: `st.success`, nothing at all,
`st.error`, or an uncaught exception. -/
inductive UIOutcome where
  | ok : UIOutcome
  | silent : UIOutcome
  | error : UIOutcome
  | crash : UIOutcome
deriving DecidableEq

/-- The Add New Player handler:
`if new_player and new_player not in st.session_state.ratings:` insert the
default rating (Python dict insertion appends); otherwise nothing happens
(no message of any kind is shown). -/
noncomputable def add_player (name : String) (ratings : Store) : UIOutcome × Store :=
  if name ≠ "" ∧ (ratings.lookup name).isNone then
    (.ok, ratings ++ [(name, defaultRating)])
  else
    (.silent, ratings)

/-- Look up the prior ratings of all participants
(`[[st.session_state.ratings[player]] for player in match_players]`);
`none` models the `KeyError` raised on the first unknown name. -/
def lookupAll (names : List String) (ratings : Store) : Option (List Rating) :=
  match names with
  | [] => some []
  | n :: rest =>
    match ratings.lookup n, lookupAll rest ratings with
    | some r, some rs => some (r :: rs)
    | _, _ => none

/-- Python dict assignment `ratings[player] = r`: replace in place when the
key is present, append otherwise. -/
def dictSet (ratings : Store) (name : String) (r : Rating) : Store :=
  if (ratings.lookup name).isNone then
    ratings ++ [(name, r)]
  else
    ratings.map (fun e => if e.1 = name then (name, r) else e)

/-- The update loop
`for i, player in enumerate(match_players): ratings[player] = updated_ratings[i][0]`. -/
def applyUpdates (ratings : Store) (ps : List (String × Rating)) : Store :=
  ps.foldl (fun acc p => dictSet acc p.1 p.2) ratings

/-- The Record Match Results handler: first the duplicate check
`len(match_players) == len(set(match_players))` (on failure `st.error`,
nothing mutated), then the prior lookups (a `KeyError` would abort with
nothing mutated), then `env.rate` and the update loop. -/
noncomputable def record_match (names : List String) (ratings : Store) : UIOutcome × Store :=
  if names.Nodup then
    match lookupAll names ratings with
    | some priors => (.ok, applyUpdates ratings (names.zip (rate priors)))
    | none => (.crash, ratings)
  else
    (.error, ratings)

/-! ### Persistence, bootstrap and the history log -/

/-- Serialized ratings file contents: name -> (mu, sigma). -/
abbrev RatingsFile := List (String × (ℝ × ℝ))

/-- Deserialization `trueskill.Rating(mu=r["mu"], sigma=r["sigma"])`. -/
def parseRatings (d : RatingsFile) : Store :=
  d.map (fun e => (e.1, ⟨e.2.1, e.2.2⟩))

/-- The fixed bootstrap mapping used when no snapshot exists. -/
noncomputable def bootstrapRatings : Store :=
  [("Bav", defaultRating), ("Sam", defaultRating),
   ("Riz", defaultRating), ("Emily", defaultRating)]

/-- `load_ratings()`: try the GitHub copy, fall back to the local file,
fall back to the bootstrap mapping. `none` models an absent or failing
source. -/
noncomputable def load_ratings (remote : Option RatingsFile)
    (localFile : Option RatingsFile) : Store :=
  match remote with
  | some d => parseRatings d
  | none =>
    match localFile with
    | some d => parseRatings d
    | none => bootstrapRatings

/-- One history log entry `{"timestamp": ..., "ratings": ...}`: a timestamp
and a full snapshot of every player's rating. Timestamps are modelled as
rationals standing for the ISO-8601 instants produced by `datetime.now()`. -/
structure HistEntry where
  timestamp : ℚ
  ratings : Store

/-- `load_history()`: GitHub copy, then local file, then the empty list. -/
def load_history (remote : Option (List HistEntry))
    (localFile : Option (List HistEntry)) : List HistEntry :=
  match remote with
  | some h => h
  | none =>
    match localFile with
    | some h => h
    | none => []

/-- `save_ratings(ratings)` as it affects the history log: read the current
log, append one entry `{timestamp: now, ratings: full snapshot}`, write it
back. -/
def save_ratings (ts : ℚ) (ratings : Store) (history : List HistEntry) : List HistEntry :=
  history ++ [⟨ts, ratings⟩]

/-- The live session state: the rating store plus the history log. -/
structure AppState where
  ratings : Store
  history : List HistEntry

/-- A mutating request submitted through the UI. -/
inductive Op where
  | addP : String → Op
  | recM : List String → Op

/-- One handler invocation at wall-clock time `ts`: the handler runs on the
rating store, and `save_ratings` (which appends the history entry) is
called only on the success path. -/
noncomputable def stepOp (s : AppState) (ts : ℚ) : Op → UIOutcome × AppState
  | .addP n =>
    match add_player n s.ratings with
    | (.ok, r') => (.ok, ⟨r', save_ratings ts r' s.history⟩)
    | (o, _) => (o, s)
  | .recM names =>
    match record_match names s.ratings with
    | (.ok, r') => (.ok, ⟨r', save_ratings ts r' s.history⟩)
    | (o, _) => (o, s)

/-- Run a sequence of timestamped operations. -/
noncomputable def runOps (s : AppState) : List (ℚ × Op) → AppState
  | [] => s
  | (ts, op) :: rest => runOps (stepOp s ts op).2 rest

/-- Number of operations of a run that commit (succeed and hence write a
history entry). -/
noncomputable def committedCount (s : AppState) : List (ℚ × Op) → ℕ
  | [] => 0
  | (ts, op) :: rest =>
    (if (stepOp s ts op).1 = .ok then 1 else 0) +
      committedCount (stepOp s ts op).2 rest

/-- Rating stores reachable from the bootstrap store by handler calls. -/
inductive Reachable : Store → Prop where
  | init : Reachable bootstrapRatings
  | addP (n : String) {s : Store} : Reachable s → Reachable (add_player n s).2
  | recM (names : List String) {s : Store} :
      Reachable s → Reachable (record_match names s).2

/-! ### The rankings view -/

/-- The derived conservative score, `rating.mu - 3 * rating.sigma`
(`get_ratings_df`). It is computed from a `Rating`'s two stored fields and
is itself never stored. -/
noncomputable def conservative_rating (r : Rating) : ℝ := r.mu - 3 * r.sigma

/-- Rounding to two decimal places (`round(x, 2)` in `get_ratings_df`). -/
noncomputable def round2 (x : ℝ) : ℝ := (round (100 * x) : ℤ) / 100

/-- The rankings view lists `a` above `b`: `get_ratings_df` sorts by the
"Conservative Rating" column (the rounded conservative score) in
descending order. -/
def viewAbove (a b : Rating) : Prop :=
  round2 (conservative_rating b) < round2 (conservative_rating a)

/-! ### Analysis of the Gaussian truncation factors -/

theorem sqrt_two_pi_pos : 0 < Real.sqrt (2 * Real.pi) :=
  Real.sqrt_pos.2 (by positivity)

theorem gpdf_pos (x : ℝ) : 0 < gpdf x :=
  div_pos (Real.exp_pos _) sqrt_two_pi_pos

theorem gpdf_eq (x : ℝ) :
    gpdf x = Real.exp (-(1 / 2) * x ^ 2) * (Real.sqrt (2 * Real.pi))⁻¹ := by
  rw [gpdf, div_eq_mul_inv]
  ring_nf

theorem continuous_gpdf : Continuous gpdf := by
  apply Continuous.div_const
  exact Real.continuous_exp.comp (by continuity)

theorem integrable_gpdf : Integrable gpdf := by
  have h : gpdf = fun x => Real.exp (-(1 / 2) * x ^ 2) * (Real.sqrt (2 * Real.pi))⁻¹ := by
    funext x
    rw [gpdf_eq]
  rw [h]
  exact (integrable_exp_neg_mul_sq (by norm_num)).mul_const _

theorem integral_gpdf : ∫ x, gpdf x = 1 := by
  have h : ∫ x, gpdf x =
      (∫ x, Real.exp (-(1 / 2) * x ^ 2)) * (Real.sqrt (2 * Real.pi))⁻¹ := by
    rw [← integral_mul_right]
    congr 1
    funext x
    rw [gpdf_eq]
  rw [h, integral_gaussian, show Real.pi / (1 / 2) = 2 * Real.pi by ring]
  exact mul_inv_cancel₀ sqrt_two_pi_pos.ne.symm

theorem gcdf_pos (t : ℝ) : 0 < gcdf t := by
  have h1 : (0 : ℝ → ℝ) ≤ᵐ[volume.restrict (Set.Iic t)] gpdf :=
    Filter.Eventually.of_forall fun x => (gpdf_pos x).le
  rw [gcdf, setIntegral_pos_iff_support_of_nonneg_ae h1 integrable_gpdf.integrableOn]
  have h2 : Function.support gpdf = Set.univ := by
    ext x
    simp [Function.support, (gpdf_pos x).ne.symm]
  rw [h2, Set.univ_inter, Real.volume_Iic]
  exact ENNReal.zero_lt_top

theorem gcdf_le_one (t : ℝ) : gcdf t ≤ 1 := by
  rw [gcdf, ← integral_gpdf]
  exact setIntegral_le_integral integrable_gpdf
    (Filter.Eventually.of_forall fun x => (gpdf_pos x).le)

theorem gcdf_sub_gcdf (a b : ℝ) : gcdf b - gcdf a = ∫ x in a..b, gpdf x :=
  intervalIntegral.integral_Iic_sub_Iic integrable_gpdf.integrableOn
    integrable_gpdf.integrableOn

theorem hasDerivAt_gcdf (t : ℝ) : HasDerivAt gcdf (gpdf t) t := by
  have h : gcdf = fun u => gcdf 0 + ∫ x in (0 : ℝ)..u, gpdf x := by
    funext u
    rw [← gcdf_sub_gcdf 0 u]
    ring
  rw [h]
  apply HasDerivAt.const_add
  exact intervalIntegral.integral_hasDerivAt_right
    integrable_gpdf.intervalIntegrable
    continuous_gpdf.stronglyMeasurable.stronglyMeasurableAtFilter
    continuous_gpdf.continuousAt

theorem hasDerivAt_gpdf (x : ℝ) : HasDerivAt gpdf (-x * gpdf x) x := by
  have h1 : HasDerivAt (fun y : ℝ => -(y ^ 2) / 2) (-x) x := by
    convert (hasDerivAt_pow 2 x).neg.div_const 2 using 1
    push_cast
    ring
  have h2 := (h1.exp).div_const (Real.sqrt (2 * Real.pi))
  have he2 : Real.exp (-(x ^ 2) / 2) * -x / Real.sqrt (2 * Real.pi) = -x * gpdf x := by
    rw [gpdf]
    ring
  rw [he2] at h2
  exact h2

theorem integrable_id_mul_gpdf : Integrable (fun x => x * gpdf x) := by
  have h := (integrable_mul_exp_neg_mul_sq (by norm_num : (0 : ℝ) < 1 / 2)).mul_const
    (Real.sqrt (2 * Real.pi))⁻¹
  apply h.congr
  apply Filter.Eventually.of_forall
  intro x
  show x * Real.exp (-(1 / 2) * x ^ 2) * (Real.sqrt (2 * Real.pi))⁻¹ = x * gpdf x
  rw [gpdf_eq]
  ring

theorem tendsto_gpdf_atBot : Tendsto gpdf atBot (nhds 0) := by
  apply tendsto_of_tendsto_of_tendsto_of_le_of_le' tendsto_const_nhds
    (show Tendsto (fun x => Real.exp x / Real.sqrt (2 * Real.pi)) atBot (nhds 0) by
      simpa using Real.tendsto_exp_atBot.div_const (Real.sqrt (2 * Real.pi)))
    (Filter.Eventually.of_forall fun x => (gpdf_pos x).le)
  filter_upwards [eventually_le_atBot (-2 : ℝ)] with x hx
  rw [gpdf]
  have hexp : Real.exp (-(x ^ 2) / 2) ≤ Real.exp x := by
    apply Real.exp_le_exp.2
    nlinarith [mul_nonneg (show (0 : ℝ) ≤ -x by linarith)
      (show (0 : ℝ) ≤ -(x + 2) by linarith)]
  exact div_le_div_of_nonneg_right hexp sqrt_two_pi_pos.le

theorem tendsto_id_mul_gpdf_atBot :
    Tendsto (fun x => x * gpdf x) atBot (nhds 0) := by
  apply tendsto_of_tendsto_of_tendsto_of_le_of_le'
    (show Tendsto (fun x => -(Real.exp x / Real.sqrt (2 * Real.pi))) atBot (nhds 0) by
      simpa using (Real.tendsto_exp_atBot.div_const (Real.sqrt (2 * Real.pi))).neg)
    tendsto_const_nhds
    ?lower ?upper
  case lower =>
    filter_upwards [eventually_le_atBot (-4 : ℝ)] with x hx
    have h1 : Real.exp (-(x ^ 2) / 2) ≤ Real.exp (2 * x) := by
      apply Real.exp_le_exp.2
      nlinarith [mul_nonneg (show (0 : ℝ) ≤ -x by linarith)
        (show (0 : ℝ) ≤ -(x + 4) by linarith)]
    have h2 : -x ≤ Real.exp (-x) := by
      have := Real.add_one_le_exp (-x)
      linarith
    have h3 : -x * Real.exp (-(x ^ 2) / 2) ≤ Real.exp (-x) * Real.exp (2 * x) :=
      mul_le_mul h2 h1 (Real.exp_pos _).le (Real.exp_pos _).le
    rw [← Real.exp_add, show -x + 2 * x = x by ring] at h3
    rw [gpdf, ← mul_div_assoc, ← neg_div]
    apply div_le_div_of_nonneg_right ?_ sqrt_two_pi_pos.le
    nlinarith
  case upper =>
    filter_upwards [eventually_le_atBot (0 : ℝ)] with x hx
    exact mul_nonpos_of_nonpos_of_nonneg hx (gpdf_pos x).le

theorem integral_id_mul_gpdf_Iic (t : ℝ) :
    ∫ x in Set.Iic t, x * gpdf x = -gpdf t := by
  have hd : ∀ y ∈ Set.Iic t, HasDerivAt (fun u => -gpdf u) (y * gpdf y) y := by
    intro y _
    have h := (hasDerivAt_gpdf y).neg
    rw [show -(-y * gpdf y) = y * gpdf y by ring] at h
    exact h
  have h := integral_Iic_of_hasDerivAt_of_tendsto' hd
    integrable_id_mul_gpdf.integrableOn
    (by simpa using tendsto_gpdf_atBot.neg)
  simpa using h

theorem mul_gcdf_add_gpdf_pos (t : ℝ) : 0 < t * gcdf t + gpdf t := by
  have h1 : IntegrableOn (fun x => t * gpdf x) (Set.Iic t) :=
    (integrable_gpdf.const_mul t).integrableOn
  have h2 : IntegrableOn (fun x => x * gpdf x) (Set.Iic t) :=
    integrable_id_mul_gpdf.integrableOn
  have hint : IntegrableOn (fun x => (t - x) * gpdf x) (Set.Iic t) := by
    apply (h1.sub h2).congr
    apply Filter.Eventually.of_forall
    intro x
    simp only [Pi.sub_apply]
    ring
  have hval : ∫ x in Set.Iic t, (t - x) * gpdf x = t * gcdf t + gpdf t := by
    have hfun : ∀ x : ℝ, (t - x) * gpdf x = t * gpdf x - x * gpdf x := fun x => by ring
    rw [setIntegral_congr_fun measurableSet_Iic fun x _ => hfun x,
      integral_sub h1 h2, integral_mul_left, integral_id_mul_gpdf_Iic, ← gcdf]
    ring
  have hnn : (0 : ℝ → ℝ) ≤ᵐ[volume.restrict (Set.Iic t)] fun x => (t - x) * gpdf x := by
    rw [Filter.EventuallyLE, ae_restrict_iff' measurableSet_Iic]
    apply Filter.Eventually.of_forall
    intro x hx
    have hxt : x ≤ t := hx
    simp only [Pi.zero_apply]
    exact mul_nonneg (by linarith) (gpdf_pos x).le
  rw [← hval, setIntegral_pos_iff_support_of_nonneg_ae hnn hint]
  apply lt_of_lt_of_le ?_ (measure_mono
    (show Set.Iio t ⊆ Function.support (fun x => (t - x) * gpdf x) ∩ Set.Iic t by
      intro x hx
      have hxt : x < t := hx
      constructor
      · simp only [Function.mem_support]
        exact (mul_pos (sub_pos.2 hxt) (gpdf_pos x)).ne.symm
      · exact le_of_lt hxt))
  rw [Real.volume_Iio]
  exact ENNReal.zero_lt_top

theorem vWin_pos (t : ℝ) : 0 < vWin t := div_pos (gpdf_pos t) (gcdf_pos t)

theorem vWin_add_pos (t : ℝ) : 0 < vWin t + t := by
  have h := mul_gcdf_add_gpdf_pos t
  have hc := gcdf_pos t
  rw [vWin, show gpdf t / gcdf t + t = (gpdf t + t * gcdf t) / gcdf t by field_simp]
  exact div_pos (by linarith) hc

theorem wWin_pos (t : ℝ) : 0 < wWin t := mul_pos (vWin_pos t) (vWin_add_pos t)

theorem tendsto_gcdf_atBot : Tendsto gcdf atBot (nhds 0) := by
  apply tendsto_of_tendsto_of_tendsto_of_le_of_le' tendsto_const_nhds
    tendsto_gpdf_atBot (Filter.Eventually.of_forall fun t => (gcdf_pos t).le)
  filter_upwards [eventually_le_atBot (-1 : ℝ)] with t ht
  have h := mul_gcdf_add_gpdf_pos t
  have hc := (gcdf_pos t).le
  nlinarith [mul_nonneg (show (0 : ℝ) ≤ -t - 1 by linarith) hc]

theorem tendsto_sq_mul_gcdf_atBot :
    Tendsto (fun t => t ^ 2 * gcdf t) atBot (nhds 0) := by
  apply tendsto_of_tendsto_of_tendsto_of_le_of_le' tendsto_const_nhds
    (show Tendsto (fun t => -(t * gpdf t)) atBot (nhds 0) by
      simpa using tendsto_id_mul_gpdf_atBot.neg)
    (Filter.Eventually.of_forall fun t => mul_nonneg (sq_nonneg t) (gcdf_pos t).le)
  filter_upwards [eventually_le_atBot (-1 : ℝ)] with t ht
  nlinarith [mul_pos (show (0 : ℝ) < -t by linarith) (mul_gcdf_add_gpdf_pos t)]

theorem pos_of_strictMono_tendsto {f : ℝ → ℝ} (hm : StrictMono f)
    (hl : Tendsto f atBot (nhds 0)) (t : ℝ) : 0 < f t := by
  rcases lt_or_le 0 (f t) with h | h
  · exact h
  · exfalso
    have h1 : f (t - 1) < f t := hm (by linarith)
    have h2 : (0 : ℝ) ≤ f (t - 1) := by
      apply le_of_tendsto hl
      filter_upwards [eventually_le_atBot (t - 1)] with s hs
      exact hm.monotone hs
    linarith

theorem hasDerivAt_mTilde (u : ℝ) :
    HasDerivAt (fun y => (1 + y ^ 2) * gcdf y + y * gpdf y)
      (2 * (u * gcdf u + gpdf u)) u := by
  have h1 : HasDerivAt (fun y : ℝ => 1 + y ^ 2) (2 * u) u := by
    have h0 := (hasDerivAt_pow 2 u).const_add 1
    convert h0 using 1
    push_cast
    ring
  have h2 := (h1.mul (hasDerivAt_gcdf u)).add ((hasDerivAt_id u).mul (hasDerivAt_gpdf u))
  convert h2 using 1
  simp only [id_eq]
  ring

theorem mTilde_pos (t : ℝ) : 0 < (1 + t ^ 2) * gcdf t + t * gpdf t := by
  apply pos_of_strictMono_tendsto (f := fun y => (1 + y ^ 2) * gcdf y + y * gpdf y)
  · apply strictMono_of_deriv_pos
    intro u
    rw [(hasDerivAt_mTilde u).deriv]
    have := mul_gcdf_add_gpdf_pos u
    linarith
  · have h : (fun y => (1 + y ^ 2) * gcdf y + y * gpdf y) =
        fun y => (gcdf y + y ^ 2 * gcdf y) + y * gpdf y := by
      funext y
      ring
    rw [h]
    simpa using (tendsto_gcdf_atBot.add tendsto_sq_mul_gcdf_atBot).add
      tendsto_id_mul_gpdf_atBot

theorem hasDerivAt_psiTilde (u : ℝ) :
    HasDerivAt (fun y => gcdf y ^ 2 - gpdf y ^ 2 - y * gpdf y * gcdf y)
      (gpdf u * ((1 + u ^ 2) * gcdf u + u * gpdf u)) u := by
  have h1 := (hasDerivAt_gcdf u).pow 2
  have h2 := (hasDerivAt_gpdf u).pow 2
  have h3 := ((hasDerivAt_id u).mul (hasDerivAt_gpdf u)).mul (hasDerivAt_gcdf u)
  have h := (h1.sub h2).sub h3
  convert h using 1
  simp only [id_eq]
  push_cast
  ring

theorem psiTilde_pos (t : ℝ) :
    0 < gcdf t ^ 2 - gpdf t ^ 2 - t * gpdf t * gcdf t := by
  apply pos_of_strictMono_tendsto
    (f := fun y => gcdf y ^ 2 - gpdf y ^ 2 - y * gpdf y * gcdf y)
  · apply strictMono_of_deriv_pos
    intro u
    rw [(hasDerivAt_psiTilde u).deriv]
    exact mul_pos (gpdf_pos u) (mTilde_pos u)
  · have h1 : Tendsto (fun y => gcdf y ^ 2) atBot (nhds 0) := by
      have h := tendsto_gcdf_atBot.mul tendsto_gcdf_atBot
      simp only [mul_zero] at h
      apply h.congr
      intro y
      ring
    have h2 : Tendsto (fun y => gpdf y ^ 2) atBot (nhds 0) := by
      have h := tendsto_gpdf_atBot.mul tendsto_gpdf_atBot
      simp only [mul_zero] at h
      apply h.congr
      intro y
      ring
    have h3 : Tendsto (fun y => y * gpdf y * gcdf y) atBot (nhds 0) := by
      have h := tendsto_id_mul_gpdf_atBot.mul tendsto_gcdf_atBot
      simpa using h
    simpa using (h1.sub h2).sub h3

theorem wWin_lt_one (t : ℝ) : wWin t < 1 := by
  have hc := gcdf_pos t
  have hpsi := psiTilde_pos t
  have hexpr : wWin t = gpdf t * (gpdf t + t * gcdf t) / (gcdf t * gcdf t) := by
    rw [wWin, vWin, div_add' _ _ _ hc.ne.symm, div_mul_div_comm]
  rw [hexpr, div_lt_one (mul_pos hc hc)]
  nlinarith

theorem gpdf_zero : gpdf 0 = 1 / Real.sqrt (2 * Real.pi) := by
  rw [gpdf]
  norm_num

theorem wWin_zero_eq : wWin 0 = vWin 0 * vWin 0 := by
  rw [wWin]
  ring

theorem wWin_zero_lower : 1 / 7 ≤ wWin 0 := by
  have hc0 := gcdf_pos 0
  have hc1 := gcdf_le_one 0
  have hg0 := gpdf_pos 0
  have hv : gpdf 0 ≤ vWin 0 := by
    rw [vWin, le_div_iff hc0]
    nlinarith
  have hsq : gpdf 0 * gpdf 0 = 1 / (2 * Real.pi) := by
    rw [gpdf_zero, div_mul_div_comm, one_mul,
      Real.mul_self_sqrt (by positivity)]
  have hpi : (2 : ℝ) * Real.pi ≤ 7 := by nlinarith [Real.pi_lt_315]
  have h2 : (1 : ℝ) / 7 ≤ gpdf 0 * gpdf 0 := by
    rw [hsq]
    exact one_div_le_one_div_of_le (by positivity) hpi
  rw [wWin_zero_eq]
  nlinarith [vWin_pos 0]

theorem exp_half_lt_two : Real.exp (1 / 2) < 2 := by
  have h1 : Real.exp (1 / 2) * Real.exp (1 / 2) = Real.exp 1 := by
    rw [← Real.exp_add]
    norm_num
  nlinarith [Real.exp_pos (1 / 2), Real.exp_one_lt_d9]

theorem gcdf_zero_lower : gpdf 0 / 2 ≤ gcdf 0 := by
  have hstep1 : ∫ x in Set.Ioc (-1 : ℝ) 0, gpdf x ≤ gcdf 0 := by
    rw [gcdf]
    apply setIntegral_mono_set integrable_gpdf.integrableOn
      (Filter.Eventually.of_forall fun x => (gpdf_pos x).le)
    apply HasSubset.Subset.eventuallyLE
    intro x hx
    exact hx.2
  have hstep2 : gpdf (-1) * 1 ≤ ∫ x in Set.Ioc (-1 : ℝ) 0, gpdf x := by
    have hconst : ∫ x in Set.Ioc (-1 : ℝ) 0, gpdf (-1) = gpdf (-1) * 1 := by
      rw [setIntegral_const, Real.volume_Ioc, smul_eq_mul]
      rw [show (0 : ℝ) - (-1) = 1 by norm_num]
      rw [ENNReal.toReal_ofReal (by norm_num)]
      ring
    rw [← hconst]
    apply setIntegral_mono_on (integrableOn_const.2 (Or.inr (by
      rw [Real.volume_Ioc]
      exact ENNReal.ofReal_lt_top)))
      integrable_gpdf.integrableOn measurableSet_Ioc
    intro x hx
    rw [gpdf, gpdf]
    apply div_le_div_of_nonneg_right ?_ sqrt_two_pi_pos.le
    apply Real.exp_le_exp.2
    nlinarith [hx.1, hx.2]
  have hstep3 : gpdf 0 / 2 ≤ gpdf (-1) := by
    have hexpneg : (1 : ℝ) / 2 ≤ Real.exp (-(1 / 2)) := by
      rw [Real.exp_neg]
      have h := inv_le_inv_of_le (Real.exp_pos (1 / 2)) exp_half_lt_two.le
      calc (1 : ℝ) / 2 = 2⁻¹ := one_div 2
        _ ≤ (Real.exp (1 / 2))⁻¹ := h
    rw [gpdf_zero, gpdf]
    rw [show -((-1 : ℝ) ^ 2) / 2 = -(1 / 2) by norm_num]
    rw [div_div, div_le_div_iff (by positivity) sqrt_two_pi_pos]
    nlinarith [mul_nonneg (show (0 : ℝ) ≤ Real.exp (-(1 / 2)) - 1 / 2 by linarith)
      (show (0 : ℝ) ≤ 2 * Real.sqrt (2 * Real.pi) by positivity)]
  linarith

theorem vWin_zero_upper : vWin 0 ≤ 2 := by
  have hc0 := gcdf_pos 0
  rw [vWin, div_le_iff hc0]
  have h := gcdf_zero_lower
  linarith

theorem wWin_zero_upper : wWin 0 ≤ 4 := by
  rw [wWin_zero_eq]
  nlinarith [vWin_pos 0, vWin_zero_upper]

/-! ### The head-to-head posterior -/

theorem tau_pos : 0 < tau := by
  rw [tau]
  norm_num

theorem beta_pos : 0 < beta := by
  rw [beta]
  norm_num

theorem dynVar_pos (r : Rating) : 0 < dynVar r := by
  rw [dynVar]
  nlinarith [sq_nonneg r.sigma, pow_pos tau_pos 2]

theorem dynVar_ge (r : Rating) : tau ^ 2 ≤ dynVar r := by
  rw [dynVar]
  nlinarith [sq_nonneg r.sigma]

theorem c2_pos (r1 r2 : Rating) : 0 < c2 r1 r2 := by
  rw [c2]
  nlinarith [dynVar_pos r1, dynVar_pos r2, pow_pos beta_pos 2]

theorem dynVar_lt_c2_fst (r1 r2 : Rating) : dynVar r1 < c2 r1 r2 := by
  rw [c2]
  nlinarith [dynVar_pos r2, pow_pos beta_pos 2]

theorem dynVar_lt_c2_snd (r1 r2 : Rating) : dynVar r2 < c2 r1 r2 := by
  rw [c2]
  nlinarith [dynVar_pos r1, pow_pos beta_pos 2]

theorem rate2_fst_mu (r1 r2 : Rating) :
    (rate2 r1 r2).1.mu =
      r1.mu + dynVar r1 / Real.sqrt (c2 r1 r2) * vWin (tArg r1 r2) := rfl

theorem rate2_snd_mu (r1 r2 : Rating) :
    (rate2 r1 r2).2.mu =
      r2.mu - dynVar r2 / Real.sqrt (c2 r1 r2) * vWin (tArg r1 r2) := rfl

theorem rate2_fst_sigma (r1 r2 : Rating) :
    (rate2 r1 r2).1.sigma =
      Real.sqrt (dynVar r1 * (1 - dynVar r1 / c2 r1 r2 * wWin (tArg r1 r2))) := rfl

theorem rate2_snd_sigma (r1 r2 : Rating) :
    (rate2 r1 r2).2.sigma =
      Real.sqrt (dynVar r2 * (1 - dynVar r2 / c2 r1 r2 * wWin (tArg r1 r2))) := rfl

/-- The posterior variance of either participant strictly exceeds
`A * (C - A) / C` where `A` is that participant's tau-inflated prior
variance and `C` the total performance variance: the information removed
by a match is limited because `w < 1`. -/
theorem posterior_var_lower {A C w : ℝ} (hA : 0 < A) (hAC : A < C) (hw : w < 1) :
    A * (C - A) / C < A * (1 - A / C * w) := by
  have hC : 0 < C := lt_trans hA hAC
  have h1 : A / C * w < A / C :=
    mul_lt_of_lt_one_right (div_pos hA hC) hw
  have h2 : A * (C - A) / C = A * (1 - A / C) := by
    field_simp
  rw [h2]
  nlinarith [mul_lt_mul_of_pos_left h1 hA]

/-- Transfer the variance floor to the concrete constants: the posterior
variance of either participant strictly exceeds
`tau^2*(tau^2+2*beta^2)/(2*tau^2+2*beta^2)`. -/
theorem posterior_var_floor_aux {A D : ℝ} (hA : tau ^ 2 ≤ A)
    (hD : tau ^ 2 + 2 * beta ^ 2 ≤ D) :
    tau ^ 2 * (tau ^ 2 + 2 * beta ^ 2) / (2 * tau ^ 2 + 2 * beta ^ 2) ≤
      A * D / (A + D) := by
  have ht : (0 : ℝ) < tau ^ 2 := pow_pos tau_pos 2
  have hb : (0 : ℝ) < beta ^ 2 := pow_pos beta_pos 2
  have hA0 : 0 < A := lt_of_lt_of_le ht hA
  have hD0 : 0 < D := lt_of_lt_of_le (by nlinarith) hD
  rw [div_le_div_iff (by nlinarith) (by nlinarith)]
  nlinarith [mul_nonneg (mul_nonneg ht.le hA0.le) (sub_nonneg.2 hD),
    mul_nonneg (mul_nonneg (by nlinarith : (0 : ℝ) ≤ tau ^ 2 + 2 * beta ^ 2) hD0.le)
      (sub_nonneg.2 hA)]

theorem posterior_var_floor_fst (r1 r2 : Rating) :
    tau ^ 2 * (tau ^ 2 + 2 * beta ^ 2) / (2 * tau ^ 2 + 2 * beta ^ 2) <
      dynVar r1 * (1 - dynVar r1 / c2 r1 r2 * wWin (tArg r1 r2)) := by
  have h1 := posterior_var_lower (dynVar_pos r1) (dynVar_lt_c2_fst r1 r2)
    (wWin_lt_one (tArg r1 r2))
  have h2 : dynVar r1 * (c2 r1 r2 - dynVar r1) / c2 r1 r2 =
      dynVar r1 * (dynVar r2 + 2 * beta ^ 2) /
        (dynVar r1 + (dynVar r2 + 2 * beta ^ 2)) := by
    rw [c2]
    ring_nf
  have h3 := posterior_var_floor_aux (dynVar_ge r1)
    (add_le_add_right (dynVar_ge r2) (2 * beta ^ 2))
  rw [h2] at h1
  linarith

theorem posterior_var_floor_snd (r1 r2 : Rating) :
    tau ^ 2 * (tau ^ 2 + 2 * beta ^ 2) / (2 * tau ^ 2 + 2 * beta ^ 2) <
      dynVar r2 * (1 - dynVar r2 / c2 r1 r2 * wWin (tArg r1 r2)) := by
  have h1 := posterior_var_lower (dynVar_pos r2) (dynVar_lt_c2_snd r1 r2)
    (wWin_lt_one (tArg r1 r2))
  have h2 : dynVar r2 * (c2 r1 r2 - dynVar r2) / c2 r1 r2 =
      dynVar r2 * (dynVar r1 + 2 * beta ^ 2) /
        (dynVar r2 + (dynVar r1 + 2 * beta ^ 2)) := by
    rw [c2]
    ring_nf
  have h3 := posterior_var_floor_aux (dynVar_ge r2)
    (add_le_add_right (dynVar_ge r1) (2 * beta ^ 2))
  rw [h2] at h1
  linarith

theorem floor_nonneg :
    0 ≤ tau ^ 2 * (tau ^ 2 + 2 * beta ^ 2) / (2 * tau ^ 2 + 2 * beta ^ 2) := by
  have ht : (0 : ℝ) < tau ^ 2 := pow_pos tau_pos 2
  have hb : (0 : ℝ) < beta ^ 2 := pow_pos beta_pos 2
  positivity

theorem floor_pos :
    0 < tau ^ 2 * (tau ^ 2 + 2 * beta ^ 2) / (2 * tau ^ 2 + 2 * beta ^ 2) := by
  have ht : (0 : ℝ) < tau ^ 2 := pow_pos tau_pos 2
  have hb : (0 : ℝ) < beta ^ 2 := pow_pos beta_pos 2
  apply div_pos (by nlinarith) (by nlinarith)

theorem rate2_fst_sigma_floor (r1 r2 : Rating) :
    Real.sqrt (tau ^ 2 * (tau ^ 2 + 2 * beta ^ 2) / (2 * tau ^ 2 + 2 * beta ^ 2)) <
      (rate2 r1 r2).1.sigma := by
  rw [rate2_fst_sigma]
  exact Real.sqrt_lt_sqrt floor_nonneg (posterior_var_floor_fst r1 r2)

theorem rate2_snd_sigma_floor (r1 r2 : Rating) :
    Real.sqrt (tau ^ 2 * (tau ^ 2 + 2 * beta ^ 2) / (2 * tau ^ 2 + 2 * beta ^ 2)) <
      (rate2 r1 r2).2.sigma := by
  rw [rate2_snd_sigma]
  exact Real.sqrt_lt_sqrt floor_nonneg (posterior_var_floor_snd r1 r2)

theorem rate2_fst_sigma_pos (r1 r2 : Rating) : 0 < (rate2 r1 r2).1.sigma :=
  lt_of_le_of_lt (Real.sqrt_nonneg _) (rate2_fst_sigma_floor r1 r2)

theorem rate2_snd_sigma_pos (r1 r2 : Rating) : 0 < (rate2 r1 r2).2.sigma :=
  lt_of_le_of_lt (Real.sqrt_nonneg _) (rate2_snd_sigma_floor r1 r2)

/-! ### The chain model for a match of any size -/

theorem denom_pos {A C w : ℝ} (hA : 0 < A) (hAC : A < C) (_hw0 : 0 < w)
    (hw1 : w < 1) : 0 < C - A * w := by
  nlinarith

theorem tau_beta_pos : (0 : ℝ) < tau ^ 2 + 2 * beta ^ 2 := by
  nlinarith [pow_pos tau_pos 2, pow_pos beta_pos 2]

theorem msgW_fst_pos (a b : Rating) : 0 < (msgW a b).1 :=
  div_pos (wWin_pos _) (denom_pos (dynVar_pos a) (dynVar_lt_c2_fst a b)
    (wWin_pos _) (wWin_lt_one _))

theorem msgL_fst_pos (a b : Rating) : 0 < (msgL a b).1 :=
  div_pos (wWin_pos _) (denom_pos (dynVar_pos b) (dynVar_lt_c2_snd a b)
    (wWin_pos _) (wWin_lt_one _))

theorem msgW_fst_lt (a b : Rating) :
    (msgW a b).1 < 1 / (tau ^ 2 + 2 * beta ^ 2) := by
  have hden := denom_pos (dynVar_pos a) (dynVar_lt_c2_fst a b)
    (wWin_pos (tArg a b)) (wWin_lt_one (tArg a b))
  show wWin (tArg a b) / (c2 a b - dynVar a * wWin (tArg a b)) <
    1 / (tau ^ 2 + 2 * beta ^ 2)
  rw [div_lt_div_iff hden tau_beta_pos]
  have hc2 : c2 a b = dynVar a + dynVar b + 2 * beta ^ 2 := rfl
  nlinarith [mul_lt_of_lt_one_right (dynVar_pos a) (wWin_lt_one (tArg a b)),
    mul_lt_of_lt_one_left tau_beta_pos (wWin_lt_one (tArg a b)),
    dynVar_ge b]

theorem msgL_fst_lt (a b : Rating) :
    (msgL a b).1 < 1 / (tau ^ 2 + 2 * beta ^ 2) := by
  have hden := denom_pos (dynVar_pos b) (dynVar_lt_c2_snd a b)
    (wWin_pos (tArg a b)) (wWin_lt_one (tArg a b))
  show wWin (tArg a b) / (c2 a b - dynVar b * wWin (tArg a b)) <
    1 / (tau ^ 2 + 2 * beta ^ 2)
  rw [div_lt_div_iff hden tau_beta_pos]
  have hc2 : c2 a b = dynVar a + dynVar b + 2 * beta ^ 2 := rfl
  nlinarith [mul_lt_of_lt_one_right (dynVar_pos b) (wWin_lt_one (tArg a b)),
    mul_lt_of_lt_one_left tau_beta_pos (wWin_lt_one (tArg a b)),
    dynVar_ge a]

theorem combine_prec_pos {r : Rating} {p : ℝ × ℝ} (hp : 0 ≤ p.1) :
    0 < 1 / dynVar r + p.1 := by
  have h1 : 0 < 1 / dynVar r := one_div_pos.2 (dynVar_pos r)
  linarith

theorem combine_sigma_floor {r : Rating} {p : ℝ × ℝ} (hp0 : 0 ≤ p.1)
    (hp1 : 1 / dynVar r + p.1 < 1 / tau ^ 2 + 2 / (tau ^ 2 + 2 * beta ^ 2)) :
    Real.sqrt (1 / (1 / tau ^ 2 + 2 / (tau ^ 2 + 2 * beta ^ 2))) <
      (combine r p).sigma := by
  show _ < Real.sqrt (1 / (1 / dynVar r + p.1))
  apply Real.sqrt_lt_sqrt (by positivity)
  exact one_div_lt_one_div_of_lt (combine_prec_pos hp0) hp1

theorem chain_prec_bound {r : Rating} {q : ℝ} (hq : q < 2 / (tau ^ 2 + 2 * beta ^ 2)) :
    1 / dynVar r + q < 1 / tau ^ 2 + 2 / (tau ^ 2 + 2 * beta ^ 2) := by
  have h1 : 1 / dynVar r ≤ 1 / tau ^ 2 :=
    one_div_le_one_div_of_le (pow_pos tau_pos 2) (dynVar_ge r)
  linarith

theorem two_div_split :
    (2 : ℝ) / (tau ^ 2 + 2 * beta ^ 2) =
      1 / (tau ^ 2 + 2 * beta ^ 2) + 1 / (tau ^ 2 + 2 * beta ^ 2) := by
  ring

theorem chainRate_sigma_floor (l : List Rating) :
    ∀ (p : ℝ × ℝ) (r : Rating), 0 ≤ p.1 →
      p.1 ≤ 1 / (tau ^ 2 + 2 * beta ^ 2) →
      ∀ x ∈ chainRate p r l,
        Real.sqrt (1 / (1 / tau ^ 2 + 2 / (tau ^ 2 + 2 * beta ^ 2))) < x.sigma := by
  induction l with
  | nil =>
    intro p r hp0 hp1 x hx
    have hb : (0 : ℝ) < 1 / (tau ^ 2 + 2 * beta ^ 2) := one_div_pos.2 tau_beta_pos
    have hx2 : x = combine r p := by simpa [chainRate] using hx
    rw [hx2]
    apply combine_sigma_floor hp0
    apply chain_prec_bound
    rw [two_div_split]
    linarith
  | cons next rest ih =>
    intro p r hp0 hp1 x hx
    rw [chainRate] at hx
    rcases List.mem_cons.1 hx with rfl | hx2
    · apply combine_sigma_floor (add_nonneg hp0 (msgW_fst_pos r next).le)
      apply chain_prec_bound
      rw [two_div_split]
      have h2 := msgW_fst_lt r next
      exact add_lt_add_of_le_of_lt hp1 h2
    · exact ih (msgL r next) next (msgL_fst_pos r next).le
        (msgL_fst_lt r next).le x hx2

theorem rate_sigma_floor (rs : List Rating) :
    ∀ r ∈ rate rs,
      Real.sqrt (1 / (1 / tau ^ 2 + 2 / (tau ^ 2 + 2 * beta ^ 2))) < r.sigma := by
  match rs with
  | [] =>
    intro r hr
    simp [rate] at hr
  | r0 :: rest =>
    intro r hr
    exact chainRate_sigma_floor rest (0, 0) r0 le_rfl
      (le_of_lt (one_div_pos.2 tau_beta_pos)) r hr

theorem rate_sigma_pos (rs : List Rating) : ∀ r ∈ rate rs, 0 < r.sigma :=
  fun r hr => lt_of_le_of_lt (Real.sqrt_nonneg _) (rate_sigma_floor rs r hr)

theorem chain_floor_pos :
    0 < Real.sqrt (1 / (1 / tau ^ 2 + 2 / (tau ^ 2 + 2 * beta ^ 2))) := by
  apply Real.sqrt_pos.2
  apply one_div_pos.2
  have h1 : 0 < 1 / tau ^ 2 := one_div_pos.2 (pow_pos tau_pos 2)
  have h2 : 0 < 2 / (tau ^ 2 + 2 * beta ^ 2) := div_pos two_pos tau_beta_pos
  linarith

/-- For a head-to-head match, one sweep of the chain model agrees exactly
with the classic TrueSkill closed form `rate2`. -/
theorem rate_pair (a b : Rating) :
    rate [a, b] = [(rate2 a b).1, (rate2 a b).2] := by
  have hA := dynVar_pos a
  have hB := dynVar_pos b
  have hC := c2_pos a b
  have hw0 := wWin_pos (tArg a b)
  have hw1 := wWin_lt_one (tArg a b)
  have hdW := denom_pos hA (dynVar_lt_c2_fst a b) hw0 hw1
  have hdL := denom_pos hB (dynVar_lt_c2_snd a b) hw0 hw1
  have hcpos : 0 < Real.sqrt (c2 a b) := Real.sqrt_pos.2 hC
  have hCs : c2 a b = Real.sqrt (c2 a b) * Real.sqrt (c2 a b) :=
    (Real.mul_self_sqrt hC.le).symm
  show [combine a (0 + (msgW a b).1, 0 + (msgW a b).2),
      combine b (msgL a b)] = [(rate2 a b).1, (rate2 a b).2]
  rw [combine, combine, msgW, msgL, rate2]
  simp only [zero_add]
  set w := wWin (tArg a b) with hwdef
  set v := vWin (tArg a b) with hvdef
  set s := Real.sqrt (c2 a b) with hsdef
  rw [hCs] at hdW hdL ⊢
  congr 1
  · congr 1
    · field_simp
      ring
    · congr 1
      field_simp
      ring
  congr 1
  congr 1
  · field_simp
    ring
  · congr 1
    field_simp
    ring

theorem tArg_self (r : Rating) : tArg r r = 0 := by
  rw [tArg, sub_self, zero_div]

theorem add_player_cases (n : String) (s : Store) :
    (add_player n s).2 = s ∨ (add_player n s).2 = s ++ [(n, defaultRating)] := by
  rw [add_player]
  by_cases hc : n ≠ "" ∧ ((s.lookup n).isNone = true)
  · rw [if_pos hc]
    exact Or.inr rfl
  · rw [if_neg hc]
    exact Or.inl rfl

theorem record_match_cases (names : List String) (s : Store) :
    (record_match names s).2 = s ∨
    ∃ priors, lookupAll names s = some priors ∧
      (record_match names s).2 = applyUpdates s (names.zip (rate priors)) := by
  rw [record_match]
  by_cases hnd : names.Nodup
  · rw [if_pos hnd]
    cases hlk : lookupAll names s with
    | none => exact Or.inl rfl
    | some priors => exact Or.inr ⟨priors, rfl, rfl⟩
  · rw [if_neg hnd]
    exact Or.inl rfl

theorem lookup_append_of_eq_none {st : Store} {n : String} (h : st.lookup n = none)
    (r : Rating) : (st ++ [(n, r)]).lookup n = some r := by
  induction st with
  | nil => simp [List.lookup]
  | cons e rest ih =>
    rw [List.cons_append, List.lookup]
    rw [List.lookup] at h
    cases hb : (n == e.1) with
    | true => simp [hb] at h
    | false =>
      simp only [hb] at h ⊢
      exact ih h

theorem mem_of_lookup_eq_some {st : Store} {n : String} {r : Rating}
    (h : st.lookup n = some r) : (n, r) ∈ st := by
  induction st with
  | nil => simp [List.lookup] at h
  | cons e rest ih =>
    obtain ⟨k, v⟩ := e
    rw [List.lookup] at h
    cases hb : (n == k) with
    | true =>
      rw [hb] at h
      simp only [Option.some.injEq] at h
      have hn : n = k := by simpa using hb
      rw [hn, ← h]
      exact List.mem_cons_self _ rest
    | false =>
      rw [hb] at h
      exact List.mem_cons_of_mem _ (ih h)

theorem lookupAll_length {names : List String} {st : Store} {priors : List Rating}
    (h : lookupAll names st = some priors) : priors.length = names.length := by
  induction names generalizing priors with
  | nil =>
    rw [lookupAll] at h
    simp only [Option.some.injEq] at h
    rw [← h]
    rfl
  | cons n rest ih =>
    rw [lookupAll] at h
    cases h1 : st.lookup n with
    | none => rw [h1] at h; simp at h
    | some r =>
      cases h2 : lookupAll rest st with
      | none => rw [h1, h2] at h; simp at h
      | some rs =>
        rw [h1, h2] at h
        simp only [Option.some.injEq] at h
        rw [← h]
        simp [ih h2]

theorem lookupAll_isSome {names : List String} {st : Store} {priors : List Rating}
    (h : lookupAll names st = some priors) :
    ∀ n ∈ names, (st.lookup n).isSome = true := by
  induction names generalizing priors with
  | nil => simp
  | cons m rest ih =>
    rw [lookupAll] at h
    cases h1 : st.lookup m with
    | none => rw [h1] at h; simp at h
    | some r =>
      cases h2 : lookupAll rest st with
      | none => rw [h1, h2] at h; simp at h
      | some rs =>
        intro n hn
        rcases List.mem_cons.1 hn with rfl | hmem
        · rw [h1]; rfl
        · exact ih h2 n hmem

theorem lookupAll_get {names : List String} {st : Store} {priors : List Rating}
    (h : lookupAll names st = some priors) :
    ∀ i (hi : i < names.length),
      st.lookup (names.get ⟨i, hi⟩) = priors.get? i := by
  induction names generalizing priors with
  | nil => intro i hi; simp at hi
  | cons m rest ih =>
    rw [lookupAll] at h
    cases h1 : st.lookup m with
    | none => rw [h1] at h; simp at h
    | some r =>
      cases h2 : lookupAll rest st with
      | none => rw [h1, h2] at h; simp at h
      | some rs =>
        rw [h1, h2] at h
        simp only [Option.some.injEq] at h
        intro i hi
        match i with
        | 0 => simpa [← h] using h1
        | j + 1 =>
          rw [← h]
          simpa using ih h2 j (by simpa using hi)

theorem lookupAll_mem {names : List String} {st : Store} {priors : List Rating}
    (h : lookupAll names st = some priors) :
    ∀ r ∈ priors, ∃ n, (n, r) ∈ st := by
  induction names generalizing priors with
  | nil =>
    rw [lookupAll] at h
    simp only [Option.some.injEq] at h
    rw [← h]
    simp
  | cons m rest ih =>
    rw [lookupAll] at h
    cases h1 : st.lookup m with
    | none => rw [h1] at h; simp at h
    | some r0 =>
      cases h2 : lookupAll rest st with
      | none => rw [h1, h2] at h; simp at h
      | some rs =>
        rw [h1, h2] at h
        simp only [Option.some.injEq] at h
        intro r hr
        rw [← h] at hr
        rcases List.mem_cons.1 hr with rfl | hmem
        · exact ⟨m, mem_of_lookup_eq_some h1⟩
        · exact ih h2 r hmem

theorem lookup_map_replace_ne {st : Store} {n p : String} (hne : p ≠ n) (r : Rating) :
    (st.map (fun e => if e.1 = n then (n, r) else e)).lookup p = st.lookup p := by
  induction st with
  | nil => rfl
  | cons e rest ih =>
    obtain ⟨k, v⟩ := e
    by_cases he : k = n
    · simp only [List.map_cons, if_pos he]
      have hb1 : (p == n) = false := by simp [hne]
      have hb2 : (p == k) = false := by rw [he]; exact hb1
      simp [List.lookup, hb1, hb2, ih]
    · simp only [List.map_cons, if_neg he]
      cases hb : (p == k) with
      | true => simp [List.lookup, hb]
      | false => simp [List.lookup, hb, ih]

theorem lookup_map_replace_self {st : Store} {n : String}
    (h : (st.lookup n).isSome = true) (r : Rating) :
    (st.map (fun e => if e.1 = n then (n, r) else e)).lookup n = some r := by
  induction st with
  | nil => simp [List.lookup] at h
  | cons e rest ih =>
    obtain ⟨k, v⟩ := e
    rw [List.lookup] at h
    by_cases he : k = n
    · simp only [List.map_cons, if_pos he]
      simp [List.lookup]
    · simp only [List.map_cons, if_neg he]
      have hb : (n == k) = false := by
        simp only [beq_eq_false_iff_ne, ne_eq]
        exact fun hh => he hh.symm
      rw [hb] at h
      simp [List.lookup, hb, ih h]

theorem lookup_dictSet_ne {st : Store} {n p : String} (hne : p ≠ n) (r : Rating) :
    (dictSet st n r).lookup p = st.lookup p := by
  rw [dictSet]
  split
  · rw [List.lookup_append]
    have h1 : List.lookup p [(n, r)] = none := by
      have hb : (p == n) = false := by simp [hne]
      simp [List.lookup, hb]
    rw [h1, Option.or_none]
  · exact lookup_map_replace_ne hne r

theorem lookup_dictSet_self {st : Store} {n : String}
    (h : (st.lookup n).isSome = true) (r : Rating) :
    (dictSet st n r).lookup n = some r := by
  rw [dictSet, if_neg (by
    rw [Option.isNone_iff_eq_none]
    exact Option.isSome_iff_ne_none.1 h)]
  exact lookup_map_replace_self h r

theorem lookup_dictSet_isSome {st : Store} {n : String}
    (h : (st.lookup n).isSome = true) (r : Rating) (p : String) :
    ((dictSet st n r).lookup p).isSome = (st.lookup p).isSome := by
  by_cases hp : p = n
  · rw [hp, lookup_dictSet_self h r, h]; rfl
  · rw [lookup_dictSet_ne hp r]

theorem mem_dictSet {st : Store} {n : String} {r : Rating} :
    ∀ e ∈ dictSet st n r, e ∈ st ∨ e.2 = r := by
  intro e he
  rw [dictSet] at he
  split at he
  · rcases List.mem_append.1 he with h | h
    · exact Or.inl h
    · right; simp at h; rw [h]
  · rcases List.mem_map.1 he with ⟨a, ha, hfa⟩
    by_cases h1 : a.1 = n
    · rw [if_pos h1] at hfa
      right; rw [← hfa]
    · rw [if_neg h1] at hfa
      left; rw [← hfa]; exact ha

theorem applyUpdates_cons (st : Store) (q : String × Rating)
    (rest : List (String × Rating)) :
    applyUpdates st (q :: rest) = applyUpdates (dictSet st q.1 q.2) rest := rfl

theorem applyUpdates_lookup_not_mem {ps : List (String × Rating)} {st : Store}
    {p : String} (hp : p ∉ ps.map Prod.fst) :
    (applyUpdates st ps).lookup p = st.lookup p := by
  induction ps generalizing st with
  | nil => rfl
  | cons q rest ih =>
    rw [applyUpdates_cons]
    simp only [List.map_cons, List.mem_cons, not_or] at hp
    rw [ih hp.2, lookup_dictSet_ne hp.1]

theorem applyUpdates_isSome {ps : List (String × Rating)} {st : Store}
    (hpres : ∀ q ∈ ps, (st.lookup q.1).isSome = true) (p : String) :
    ((applyUpdates st ps).lookup p).isSome = (st.lookup p).isSome := by
  induction ps generalizing st with
  | nil => rfl
  | cons q rest ih =>
    rw [applyUpdates_cons]
    have hq := hpres q (List.mem_cons_self q rest)
    rw [ih (fun q2 hq2 => by
      rw [lookup_dictSet_isSome hq q.2]
      exact hpres q2 (List.mem_cons_of_mem q hq2))]
    exact lookup_dictSet_isSome hq q.2 p

theorem applyUpdates_lookup_get {ps : List (String × Rating)} {st : Store}
    (hnd : (ps.map Prod.fst).Nodup)
    (hpres : ∀ q ∈ ps, (st.lookup q.1).isSome = true) :
    ∀ i (hi : i < ps.length),
      (applyUpdates st ps).lookup (ps.get ⟨i, hi⟩).1 = some (ps.get ⟨i, hi⟩).2 := by
  induction ps generalizing st with
  | nil => intro i hi; simp at hi
  | cons q rest ih =>
    intro i hi
    rw [applyUpdates_cons]
    simp only [List.map_cons, List.nodup_cons] at hnd
    match i with
    | 0 =>
      simp only [List.get]
      rw [applyUpdates_lookup_not_mem hnd.1]
      exact lookup_dictSet_self (hpres q (List.mem_cons_self q rest)) q.2
    | j + 1 =>
      simp only [List.get]
      exact ih hnd.2 (fun q2 hq2 => by
        rw [lookup_dictSet_isSome (hpres q (List.mem_cons_self q rest)) q.2]
        exact hpres q2 (List.mem_cons_of_mem q hq2)) j (by simpa using hi)

theorem mem_applyUpdates {ps : List (String × Rating)} {st : Store} :
    ∀ e ∈ applyUpdates st ps, e ∈ st ∨ ∃ q ∈ ps, e.2 = q.2 := by
  induction ps generalizing st with
  | nil => intro e he; exact Or.inl he
  | cons q rest ih =>
    intro e he
    rw [applyUpdates_cons] at he
    rcases ih e he with h | ⟨q2, hq2, hval⟩
    · rcases mem_dictSet e h with h2 | h2
      · exact Or.inl h2
      · exact Or.inr ⟨q, List.mem_cons_self q rest, h2⟩
    · exact Or.inr ⟨q2, List.mem_cons_of_mem q hq2, hval⟩

theorem stepOp_shape (s : AppState) (ts : ℚ) (op : Op) :
    (stepOp s ts op).2.history =
      (if (stepOp s ts op).1 = .ok then
        s.history ++ [⟨ts, (stepOp s ts op).2.ratings⟩]
      else s.history) := by
  cases op with
  | addP n =>
    rcases h1 : add_player n s.ratings with ⟨o, r2⟩
    cases o <;> simp [stepOp, h1, save_ratings]
  | recM names =>
    rcases h1 : record_match names s.ratings with ⟨o, r2⟩
    cases o <;> simp [stepOp, h1, save_ratings]

theorem stepOp_not_ok {s : AppState} {ts : ℚ} {op : Op}
    (h : (stepOp s ts op).1 ≠ .ok) : (stepOp s ts op).2 = s := by
  cases op with
  | addP n =>
    rcases h1 : add_player n s.ratings with ⟨o, r2⟩
    cases o <;> simp [stepOp, h1] at h ⊢
  | recM names =>
    rcases h1 : record_match names s.ratings with ⟨o, r2⟩
    cases o <;> simp [stepOp, h1] at h ⊢

theorem runOps_cons (s : AppState) (ts : ℚ) (op : Op) (rest : List (ℚ × Op)) :
    runOps s ((ts, op) :: rest) = runOps (stepOp s ts op).2 rest := rfl

theorem committedCount_cons (s : AppState) (ts : ℚ) (op : Op)
    (rest : List (ℚ × Op)) :
    committedCount s ((ts, op) :: rest) =
      (if (stepOp s ts op).1 = .ok then 1 else 0) +
        committedCount (stepOp s ts op).2 rest := rfl

theorem runOps_history_aux (ops : List (ℚ × Op)) :
    ∀ s : AppState,
      List.Chain' (· ≤ ·)
        (s.history.map HistEntry.timestamp ++ ops.map Prod.fst) →
      s.history <+: (runOps s ops).history ∧
      (runOps s ops).history.length = s.history.length + committedCount s ops ∧
      List.Chain' (· ≤ ·) ((runOps s ops).history.map HistEntry.timestamp) := by
  induction ops with
  | nil =>
    intro s hmono
    refine ⟨List.prefix_refl _, rfl, ?_⟩
    simpa using hmono
  | cons p rest ih =>
    obtain ⟨ts, op⟩ := p
    intro s hmono
    by_cases hc : (stepOp s ts op).1 = .ok
    · have hh : (stepOp s ts op).2.history =
          s.history ++ [⟨ts, (stepOp s ts op).2.ratings⟩] := by
        rw [stepOp_shape, if_pos hc]
      have hmono2 : List.Chain' (· ≤ ·)
          ((stepOp s ts op).2.history.map HistEntry.timestamp ++
            rest.map Prod.fst) := by
        rw [hh]
        simpa [List.append_assoc] using hmono
      obtain ⟨hpre, hlen, hchain⟩ := ih (stepOp s ts op).2 hmono2
      rw [runOps_cons]
      refine ⟨?_, ?_, hchain⟩
      · exact List.IsPrefix.trans (by rw [hh]; exact List.prefix_append _ _) hpre
      · rw [hlen, hh, committedCount_cons, if_pos hc]
        simp only [List.length_append, List.length_singleton]
        omega
    · have hs : (stepOp s ts op).2 = s := stepOp_not_ok hc
      have hmono2 : List.Chain' (· ≤ ·)
          (s.history.map HistEntry.timestamp ++ rest.map Prod.fst) := by
        apply List.Chain'.sublist hmono
        apply List.Sublist.append (List.Sublist.refl _)
        simp only [List.map_cons]
        exact List.sublist_cons_self _ _
      obtain ⟨hpre, hlen, hchain⟩ := ih s hmono2
      rw [runOps_cons, hs]
      refine ⟨hpre, ?_, hchain⟩
      rw [hlen, committedCount_cons, if_neg hc, hs]
      simp

theorem chainRate_length (l : List Rating) :
    ∀ (p : ℝ × ℝ) (r : Rating), (chainRate p r l).length = l.length + 1 := by
  induction l with
  | nil => intro p r; rfl
  | cons next rest ih =>
    intro p r
    simp [chainRate, ih]

theorem rate_length (rs : List Rating) : (rate rs).length = rs.length := by
  match rs with
  | [] => rfl
  | r :: rest => exact chainRate_length rest (0, 0) r

/-! ### Claim theorems -/

/-- C9: the history log is append-only (the prior log is always a prefix
of the new one), its length grows by exactly one entry per committed
add-player or record-match operation, each committed operation appends one
entry holding the full snapshot of every player's rating at that moment,
and log timestamps are monotonically non-decreasing whenever the wall
clock feeding the operations is non-decreasing. -/
theorem C9_history_append_only (s : AppState) (ops : List (ℚ × Op))
    (hmono : List.Chain' (· ≤ ·)
      (s.history.map HistEntry.timestamp ++ ops.map Prod.fst)) :
    s.history <+: (runOps s ops).history ∧
    (runOps s ops).history.length = s.history.length + committedCount s ops ∧
    List.Chain' (· ≤ ·) ((runOps s ops).history.map HistEntry.timestamp) ∧
    (∀ (s2 : AppState) (ts : ℚ) (op : Op),
      (stepOp s2 ts op).2.history =
        if (stepOp s2 ts op).1 = .ok then
          s2.history ++ [⟨ts, (stepOp s2 ts op).2.ratings⟩]
        else s2.history) := by
  obtain ⟨h1, h2, h3⟩ := runOps_history_aux ops s hmono
  exact ⟨h1, h2, h3, stepOp_shape⟩

/-- Witness for C9_history_append_only: two player additions at times 1
and 2 starting from the bootstrap state with an empty log. -/
theorem C9_history_append_only_witness :
    (AppState.mk bootstrapRatings []).history <+:
      (runOps ⟨bootstrapRatings, []⟩
        [(1, .addP "Zed"), (2, .addP "Kay")]).history ∧
    (runOps (⟨bootstrapRatings, []⟩ : AppState)
        [(1, .addP "Zed"), (2, .addP "Kay")]).history.length =
      (AppState.mk bootstrapRatings []).history.length +
        committedCount ⟨bootstrapRatings, []⟩
          [(1, .addP "Zed"), (2, .addP "Kay")] ∧
    List.Chain' (· ≤ ·)
      ((runOps (⟨bootstrapRatings, []⟩ : AppState)
        [(1, .addP "Zed"), (2, .addP "Kay")]).history.map
          HistEntry.timestamp) ∧
    (∀ (s2 : AppState) (ts : ℚ) (op : Op),
      (stepOp s2 ts op).2.history =
        if (stepOp s2 ts op).1 = .ok then
          s2.history ++ [⟨ts, (stepOp s2 ts op).2.ratings⟩]
        else s2.history) :=
  C9_history_append_only ⟨bootstrapRatings, []⟩
    [(1, .addP "Zed"), (2, .addP "Kay")] (by simp)

/-- C10: when neither the remote backend nor a local `ratings.json` is
available, `load_ratings` returns exactly the four bootstrap players
"Bav", "Sam", "Riz", "Emily" at the default rating (mu 25, sigma 25/3),
and `load_history` returns the empty sequence. -/
theorem C10_bootstrap_load :
    load_ratings none none =
      [("Bav", ⟨25, 25 / 3⟩), ("Sam", ⟨25, 25 / 3⟩),
       ("Riz", ⟨25, 25 / 3⟩), ("Emily", ⟨25, 25 / 3⟩)] ∧
    load_history none none = [] :=
  ⟨rfl, rfl⟩

/-- C8: the conservative score equals `mu - 3*sigma` and is derived from the
two stored fields; for A = (mu 30, sigma 1) and B = (mu 31, sigma 5) it is
27 versus 16, so the rankings view (descending conservative score) lists A
above B despite A's lower mean. -/
theorem C8_conservative_ordering :
    (∀ r : Rating, conservative_rating r = r.mu - 3 * r.sigma) ∧
    conservative_rating ⟨30, 1⟩ = 27 ∧
    conservative_rating ⟨31, 5⟩ = 16 ∧
    (16 : ℝ) < 27 ∧
    (30 : ℝ) < 31 ∧
    viewAbove ⟨30, 1⟩ ⟨31, 5⟩ := by
  refine ⟨fun r => rfl, by norm_num [conservative_rating], by norm_num [conservative_rating],
    by norm_num, by norm_num, ?_⟩
  show round2 (conservative_rating ⟨31, 5⟩) < round2 (conservative_rating ⟨30, 1⟩)
  have h16 : conservative_rating (⟨31, 5⟩ : Rating) = 16 := by norm_num [conservative_rating]
  have h27 : conservative_rating (⟨30, 1⟩ : Rating) = 27 := by norm_num [conservative_rating]
  rw [h16, h27, round2, round2]
  have e1 : (100 : ℝ) * 16 = ((1600 : ℤ) : ℝ) := by norm_num
  have e2 : (100 : ℝ) * 27 = ((2700 : ℤ) : ℝ) := by norm_num
  rw [e1, e2, round_intCast, round_intCast]
  norm_num

/-- C5 counterexample: the claim says a whitespace-only name fails with a
validation error and leaves the store unchanged; in the code the string
" " is truthy and absent, so the handler inserts it and reports success. -/
theorem C5_counterexample :
    add_player " " bootstrapRatings =
      (.ok, bootstrapRatings ++ [(" ", defaultRating)]) := by
  rw [add_player, if_pos]
  exact ⟨by decide, by rfl⟩

/-- C5 (amended): `add_player` inserts the default rating and reports
success iff the name is a nonempty string (whitespace-only included) not
already present (case-sensitive); otherwise it is a silent no-op — no
error is surfaced and the store is unchanged. In particular, adding the
same name twice inserts on the first call and silently leaves the store
unchanged on the second. -/
theorem C5_add_twice (st : Store) (n : String) (hne : n ≠ "")
    (habs : st.lookup n = none) :
    add_player n st = (.ok, st ++ [(n, defaultRating)]) ∧
    add_player n (add_player n st).2 =
      (.silent, st ++ [(n, defaultRating)]) := by
  have h1 : add_player n st = (.ok, st ++ [(n, defaultRating)]) := by
    rw [add_player, if_pos]
    exact ⟨hne, by rw [habs]; rfl⟩
  refine ⟨h1, ?_⟩
  rw [h1]
  rw [add_player, if_neg]
  intro ⟨_, h2⟩
  rw [lookup_append_of_eq_none habs defaultRating] at h2
  simp at h2

/-- Witness for C5_add_twice at name "X" on the bootstrap store. -/
theorem C5_add_twice_witness :
    add_player "X" bootstrapRatings =
      (.ok, bootstrapRatings ++ [("X", defaultRating)]) ∧
    add_player "X" (add_player "X" bootstrapRatings).2 =
      (.silent, bootstrapRatings ++ [("X", defaultRating)]) :=
  C5_add_twice bootstrapRatings "X" (by decide) (by rfl)

/-- C7: a successful `record_match` reports success, replaces the ratings
of exactly the named participants (index-aligned with the update
algorithm's output), leaves every other player's rating unchanged, and the
updated store — which the handler keeps as the full session mapping —
still contains exactly the same players. -/
theorem C7_frame (st : Store) (names : List String) (priors : List Rating)
    (hnd : names.Nodup) (hlk : lookupAll names st = some priors) :
    (record_match names st).1 = .ok ∧
    (∀ p, p ∉ names → (record_match names st).2.lookup p = st.lookup p) ∧
    (∀ i (hi : i < names.length),
      (record_match names st).2.lookup names[i] = (rate priors)[i]?) ∧
    (∀ p, ((record_match names st).2.lookup p).isSome = (st.lookup p).isSome) := by
  have hrm : record_match names st = (.ok, applyUpdates st (names.zip (rate priors))) := by
    rw [record_match, if_pos hnd, hlk]
  have hlen : (rate priors).length = names.length := by
    rw [rate_length]; exact lookupAll_length hlk
  have hmapfst : (names.zip (rate priors)).map Prod.fst = names :=
    List.map_fst_zip _ _ (le_of_eq hlen.symm)
  have hzlen : (names.zip (rate priors)).length = names.length := by
    rw [List.length_zip, hlen, min_self]
  have hpres : ∀ q ∈ names.zip (rate priors), (st.lookup q.1).isSome = true := by
    intro q hq
    apply lookupAll_isSome hlk
    have hmem : q.1 ∈ (names.zip (rate priors)).map Prod.fst :=
      List.mem_map_of_mem _ hq
    rwa [hmapfst] at hmem
  refine ⟨by rw [hrm], ?_, ?_, ?_⟩
  · intro p hp
    rw [hrm]
    exact applyUpdates_lookup_not_mem (by rwa [hmapfst])
  · intro i hi
    rw [hrm]
    have hi2 : i < (names.zip (rate priors)).length := by rwa [hzlen]
    have hget := applyUpdates_lookup_get
      (by rw [hmapfst]; exact hnd) hpres i hi2
    have hz : (names.zip (rate priors)).get ⟨i, hi2⟩ =
        (names[i], (rate priors)[i]) := by
      rw [List.get_eq_getElem]
      exact List.getElem_zip
    rw [hz] at hget
    rw [List.getElem?_eq_getElem (by rwa [hlen])]
    exact hget
  · intro p
    rw [hrm]
    exact applyUpdates_isSome hpres p

/-- Witness for C7_frame: a head-to-head match between "Bav" and "Sam" on
the bootstrap store. -/
theorem C7_frame_witness :
    (record_match ["Bav", "Sam"] bootstrapRatings).1 = .ok ∧
    (∀ p, p ∉ ["Bav", "Sam"] →
      (record_match ["Bav", "Sam"] bootstrapRatings).2.lookup p =
        bootstrapRatings.lookup p) ∧
    (∀ i (hi : i < (["Bav", "Sam"] : List String).length),
      (record_match ["Bav", "Sam"] bootstrapRatings).2.lookup (["Bav", "Sam"] : List String)[i] =
        (rate [defaultRating, defaultRating])[i]?) ∧
    (∀ p, ((record_match ["Bav", "Sam"] bootstrapRatings).2.lookup p).isSome =
      (bootstrapRatings.lookup p).isSome) :=
  C7_frame bootstrapRatings ["Bav", "Sam"] [defaultRating, defaultRating]
    (by decide) (by rfl)

/-- C6: a match request naming the same player twice is rejected by the
duplicate check (`st.error`) before any lookup or update, leaving the
rating store exactly as it was. -/
theorem C6_duplicate_rejected (st : Store) (names : List String)
    (hdup : ¬ names.Nodup) :
    record_match names st = (.error, st) := by
  rw [record_match, if_neg hdup]

/-- Witness for C6_duplicate_rejected at the spec's example ["A","B","A"]. -/
theorem C6_duplicate_rejected_witness :
    record_match ["A", "B", "A"] bootstrapRatings = (.error, bootstrapRatings) :=
  C6_duplicate_rejected bootstrapRatings ["A", "B", "A"] (by decide)

/-- C1 (amended): for a head-to-head match between two players both at the
default prior rating, the winner's mean strictly increases, the loser's
mean strictly decreases, and both sigmas strictly decrease. (For equal
priors in general the sigma part fails near the tau floor — see the
counterexample.) -/
theorem C1_default_head_to_head :
    defaultRating.mu < (rate2 defaultRating defaultRating).1.mu ∧
    (rate2 defaultRating defaultRating).2.mu < defaultRating.mu ∧
    (rate2 defaultRating defaultRating).1.sigma < defaultRating.sigma ∧
    (rate2 defaultRating defaultRating).2.sigma < defaultRating.sigma := by
  have hA : dynVar defaultRating = 10001 / 144 := by
    show sigma0 ^ 2 + tau ^ 2 = 10001 / 144
    rw [sigma0, tau]
    norm_num
  have hC : c2 defaultRating defaultRating = 12501 / 72 := by
    rw [c2, hA, beta]
    norm_num
  have ht0 : tArg defaultRating defaultRating = 0 := tArg_self _
  have hv0 := vWin_pos 0
  have hw1 := wWin_zero_lower
  have hsqrtC : 0 < Real.sqrt (c2 defaultRating defaultRating) :=
    Real.sqrt_pos.2 (c2_pos _ _)
  have hdelta : 0 < dynVar defaultRating /
      Real.sqrt (c2 defaultRating defaultRating) * vWin 0 :=
    mul_pos (div_pos (dynVar_pos _) hsqrtC) hv0
  have hsig : dynVar defaultRating *
      (1 - dynVar defaultRating / c2 defaultRating defaultRating * wWin 0) <
      (25 / 3) ^ 2 := by
    rw [hA, hC]
    rw [show (10001 / 144 : ℝ) / (12501 / 72) = 10001 / 25002 by norm_num]
    nlinarith [hw1]
  have hsigma : defaultRating.sigma = 25 / 3 := rfl
  refine ⟨?_, ?_, ?_, ?_⟩
  · rw [rate2_fst_mu, ht0]
    linarith
  · rw [rate2_snd_mu, ht0]
    linarith
  · rw [rate2_fst_sigma, ht0, hsigma,
      Real.sqrt_lt' (by norm_num : (0 : ℝ) < 25 / 3)]
    exact hsig
  · rw [rate2_snd_sigma, ht0, hsigma,
      Real.sqrt_lt' (by norm_num : (0 : ℝ) < 25 / 3)]
    exact hsig

/-- C1 counterexample: for the equal prior rating (mu 25, sigma 1/100),
recording the head-to-head match strictly increases the winner's sigma —
near the tau floor the dynamics factor adds more variance than the match
outcome removes — so the claim's "both players' sigma strictly decreases"
is false for equal priors in general. -/
theorem C1_counterexample :
    (⟨25, 1 / 100⟩ : Rating).sigma <
      (rate2 ⟨25, 1 / 100⟩ ⟨25, 1 / 100⟩).1.sigma := by
  have hA : dynVar ⟨25, 1 / 100⟩ = 317 / 45000 := by
    show (1 / 100 : ℝ) ^ 2 + tau ^ 2 = 317 / 45000
    rw [tau]
    norm_num
  have hC : c2 (⟨25, 1 / 100⟩ : Rating) ⟨25, 1 / 100⟩ = 781567 / 22500 := by
    rw [c2, hA, beta]
    norm_num
  have ht0 := tArg_self (⟨25, 1 / 100⟩ : Rating)
  have hw4 := wWin_zero_upper
  have hw0 := wWin_pos 0
  have hs : (⟨25, 1 / 100⟩ : Rating).sigma = 1 / 100 := rfl
  rw [hs, rate2_fst_sigma, ht0, Real.lt_sqrt (by norm_num), hA, hC]
  rw [show (317 / 45000 : ℝ) / (781567 / 22500) = 317 / 1563134 by norm_num]
  nlinarith [hw4, hw0]

/-- C2: every rating in every store reachable from the bootstrap store by
add-player and record-match handler calls has sigma > 0: new players start
at the default prior (sigma0 = 25/3 > 0) and the update algorithm's
posterior sigmas are strictly positive. -/
theorem C2_sigma_positive {s : Store} (h : Reachable s) :
    ∀ e ∈ s, 0 < e.2.sigma := by
  induction h with
  | init =>
    intro e he
    have hd : (0 : ℝ) < defaultRating.sigma := by
      show (0 : ℝ) < (25 / 3 : ℝ)
      norm_num
    have hmem : e = ("Bav", defaultRating) ∨ e = ("Sam", defaultRating) ∨
        e = ("Riz", defaultRating) ∨ e = ("Emily", defaultRating) := by
      simpa [bootstrapRatings] using he
    rcases hmem with rfl | rfl | rfl | rfl <;> exact hd
  | addP n hr ih =>
    intro e he
    rcases add_player_cases n _ with hcase | hcase
    · rw [hcase] at he
      exact ih e he
    · rw [hcase] at he
      rcases List.mem_append.1 he with h1 | h1
      · exact ih e h1
      · have he2 : e = (n, defaultRating) := by simpa using h1
        rw [he2]
        show (0 : ℝ) < (25 / 3 : ℝ)
        norm_num
  | recM names hr ih =>
    intro e he
    rcases record_match_cases names _ with hcase | ⟨priors, hlk, hcase⟩
    · rw [hcase] at he
      exact ih e he
    · rw [hcase] at he
      rcases mem_applyUpdates e he with h1 | ⟨q, hq, hval⟩
      · exact ih e h1
      · rw [hval]
        have hmem2 := (List.of_mem_zip (show (q.1, q.2) ∈ _ from hq)).2
        exact rate_sigma_pos priors q.2 hmem2

/-- Witness for C2_sigma_positive: the entry of "Bav" in the initial
reachable store has positive sigma. -/
theorem C2_sigma_positive_witness :
    0 < (("Bav", defaultRating) : String × Rating).2.sigma :=
  C2_sigma_positive Reachable.init ("Bav", defaultRating)
    (by simp [bootstrapRatings])

/-- C3 (amended): after every recorded match — whatever its number of
participants — each participant's posterior sigma remains strictly above
the positive floor `sqrt(1/(1/tau^2 + 2/(tau^2+2*beta^2)))` (approximately
tau) implied by the dynamics factor; sigma is however not guaranteed to
strictly decrease (near the floor it strictly increases — see the
counterexample). -/
theorem C3_sigma_floor :
    0 < Real.sqrt (1 / (1 / tau ^ 2 + 2 / (tau ^ 2 + 2 * beta ^ 2))) ∧
    ∀ (priors : List Rating), ∀ r ∈ rate priors,
      Real.sqrt (1 / (1 / tau ^ 2 + 2 / (tau ^ 2 + 2 * beta ^ 2))) < r.sigma :=
  ⟨chain_floor_pos, fun priors => rate_sigma_floor priors⟩

/-- Witness for C3_sigma_floor at a concrete head-to-head match between two
default-prior players. -/
theorem C3_sigma_floor_witness :
    0 < Real.sqrt (1 / (1 / tau ^ 2 + 2 / (tau ^ 2 + 2 * beta ^ 2))) ∧
    Real.sqrt (1 / (1 / tau ^ 2 + 2 / (tau ^ 2 + 2 * beta ^ 2))) <
      (rate2 defaultRating defaultRating).1.sigma :=
  ⟨C3_sigma_floor.1,
   C3_sigma_floor.2 [defaultRating, defaultRating]
     (rate2 defaultRating defaultRating).1
     (by rw [rate_pair]; exact List.mem_cons_self _ _)⟩

/-- C3 counterexample: recording the match ["P", "Q"] on a store in which
both participants have sigma 1/50 replaces P's rating with the
head-to-head posterior, whose sigma is strictly larger than 1/50:
uncertainty does not strictly decrease for every participant of every
recorded match. -/
theorem C3_counterexample :
    (record_match ["P", "Q"]
        [("P", ⟨25, 1 / 50⟩), ("Q", ⟨25, 1 / 50⟩)]).2.lookup "P" =
      some (rate2 ⟨25, 1 / 50⟩ ⟨25, 1 / 50⟩).1 ∧
    (1 : ℝ) / 50 < (rate2 ⟨25, 1 / 50⟩ ⟨25, 1 / 50⟩).1.sigma := by
  constructor
  · have hrm : record_match ["P", "Q"] [("P", ⟨25, 1 / 50⟩), ("Q", ⟨25, 1 / 50⟩)] =
        (.ok, applyUpdates [("P", ⟨25, 1 / 50⟩), ("Q", ⟨25, 1 / 50⟩)]
          (["P", "Q"].zip (rate [⟨25, 1 / 50⟩, ⟨25, 1 / 50⟩]))) := by
      rw [record_match, if_pos (by decide)]
      rfl
    rw [hrm, rate_pair]
    rfl
  · have hA : dynVar ⟨25, 1 / 50⟩ = 661 / 90000 := by
      show (1 / 50 : ℝ) ^ 2 + tau ^ 2 = 661 / 90000
      rw [tau]
      norm_num
    have hC : c2 (⟨25, 1 / 50⟩ : Rating) ⟨25, 1 / 50⟩ = 1563161 / 45000 := by
      rw [c2, hA, beta]
      norm_num
    have ht0 := tArg_self (⟨25, 1 / 50⟩ : Rating)
    have hw4 := wWin_zero_upper
    have hw0 := wWin_pos 0
    rw [rate2_fst_sigma, ht0, Real.lt_sqrt (by norm_num), hA, hC]
    rw [show (661 / 90000 : ℝ) / (1563161 / 45000) = 661 / 3126322 by norm_num]
    nlinarith [hw4, hw0]

/-- C4: `record_match` is order-sensitive: for any two priors, the
first-listed (winning) player's mean delta is strictly positive and the
second-listed (losing) player's strictly negative, so recording the same
pair with the order reversed gives each player a mean delta of the
opposite sign. -/
theorem C4_order_sensitive (r1 r2 : Rating) :
    (0 < (rate2 r1 r2).1.mu - r1.mu ∧ (rate2 r2 r1).2.mu - r1.mu < 0) ∧
    ((rate2 r1 r2).2.mu - r2.mu < 0 ∧ 0 < (rate2 r2 r1).1.mu - r2.mu) := by
  have h12 : 0 < Real.sqrt (c2 r1 r2) := Real.sqrt_pos.2 (c2_pos r1 r2)
  have h21 : 0 < Real.sqrt (c2 r2 r1) := Real.sqrt_pos.2 (c2_pos r2 r1)
  have d1 := dynVar_pos r1
  have d2 := dynVar_pos r2
  have v12 := vWin_pos (tArg r1 r2)
  have v21 := vWin_pos (tArg r2 r1)
  refine ⟨⟨?_, ?_⟩, ?_, ?_⟩
  · rw [rate2_fst_mu]
    have h := mul_pos (div_pos d1 h12) v12
    linarith
  · rw [rate2_snd_mu]
    have h := mul_pos (div_pos d1 h21) v21
    linarith
  · rw [rate2_snd_mu]
    have h := mul_pos (div_pos d2 h12) v12
    linarith
  · rw [rate2_fst_mu]
    have h := mul_pos (div_pos d2 h21) v21
    linarith

end UNORanking
